import Mathlib

/-!
Verification of the cut-planning / caption-resynchronization core of
`transcode.py` against its design document.

Times are modelled as rationals (`ℚ`): the Python source computes with
seconds as numbers and every claim under study involves only exact
arithmetic (sums, differences, comparisons, division by powers of ten).

The embedding follows the source closely:
* `Subtitles.adjust` (caption resynchronization) becomes `adjustStep` /
  `adjustList` / `adjust` over a list of caption entries;
* `Transcoder.split` / `Transcoder._extract` (cut planning, chapter marks,
  subtitle cut marks) become `extractStep` / `splitLoop` / `split` over an
  explicit `PlanState`;
* the audio-stream selection of `Transcoder._find_streams` becomes
  `probeAudio` / `selectAudio`;
* `_seconds_to_time_frac(…, comma=True)` and `_convert_timestamp` become
  `seconds_to_time_frac_comma` and `convert_timestamp` at the level of the
  digit groups the SRT regex exchanges.
-/

/-- A caption entry parsed from one SRT timestamp line:
`rawStart`/`rawEnd` in seconds, display text attached. -/
structure CaptionEntry where
  rawStart : ℚ
  rawEnd : ℚ
  text : String
  deriving DecidableEq

/-- The mutable state threaded through `Subtitles.adjust`:
the cumulative correction `delay` and the boundary-mark cursor `curr`. -/
structure AdjState where
  delay : ℚ
  curr : ℕ
  deriving DecidableEq

/-- One iteration of the loop body of `Subtitles.adjust` for a line whose
timestamps matched the SRT regex:

```
start, end = _convert_timestamp(match)
start += delay
end += delay
if curr < len(self.marks) and self.marks[curr] < end:
    if self.marks[curr] > start:
        delay += self.marks[curr] - end
        end = self.marks[curr]
    curr += 1
```

Returns the new state and the emitted (possibly clipped) entry. -/
def adjustStep (marks : List ℚ) (st : AdjState) (e : CaptionEntry) :
    AdjState × CaptionEntry :=
  let s1 := e.rawStart + st.delay
  let e1 := e.rawEnd + st.delay
  if st.curr < marks.length ∧ marks.getD st.curr 0 < e1 then
    if marks.getD st.curr 0 > s1 then
      (⟨st.delay + (marks.getD st.curr 0 - e1), st.curr + 1⟩,
       ⟨s1, marks.getD st.curr 0, e.text⟩)
    else
      (⟨st.delay, st.curr + 1⟩, ⟨s1, e1, e.text⟩)
  else
    (⟨st.delay, st.curr⟩, ⟨s1, e1, e.text⟩)

/-- The loop of `Subtitles.adjust` over all timestamp lines, in file order. -/
def adjustList (marks : List ℚ) (st : AdjState) :
    List CaptionEntry → List CaptionEntry
  | [] => []
  | e :: rest =>
    let p := adjustStep marks st e
    p.2 :: adjustList marks p.1 rest

/-- `Subtitles.adjust`: with no recorded cut marks the method returns at once
(`if len(self.marks) == 0: return`), leaving the caption file untouched;
otherwise it rewrites every timestamp line starting from
`delay = 0.0`, `curr = 0`. -/
def adjust (marks : List ℚ) (subs : List CaptionEntry) : List CaptionEntry :=
  if marks.length = 0 then subs else adjustList marks ⟨0, 0⟩ subs

/-- C1 -- A caption whose corrected range straddles the current cut
boundary (corrected start strictly before it, corrected end strictly
after it) is clipped to end exactly at the boundary, and the cumulative
delay changes by `boundary - correctedEnd` — the (negative of the) amount
the visible duration was shortened — with every subsequent entry processed
under the new delay.  Concretely, with one boundary at `10` and a caption
`rawStart = 9`, `rawEnd = 12` under zero prior delay, the emitted entry
ends at `10` and the following entry is shifted 2 seconds earlier. -/
theorem adjust_clips_straddling_caption (marks : List ℚ) (st : AdjState)
    (e : CaptionEntry) (rest : List CaptionEntry)
    (hcur : st.curr < marks.length)
    (hstart : e.rawStart + st.delay < marks.getD st.curr 0)
    (hend : marks.getD st.curr 0 < e.rawEnd + st.delay) :
    adjustList marks st (e :: rest) =
      ⟨e.rawStart + st.delay, marks.getD st.curr 0, e.text⟩ ::
        adjustList marks
          ⟨st.delay + (marks.getD st.curr 0 - (e.rawEnd + st.delay)),
            st.curr + 1⟩ rest
    ∧ adjust [10] [⟨9, 12, "a"⟩, ⟨20, 21, "b"⟩] =
        [⟨9, 10, "a"⟩, ⟨18, 19, "b"⟩] := by
  constructor
  · simp only [adjustList, adjustStep]
    rw [if_pos ⟨hcur, hend⟩, if_pos hstart]
  · norm_num [adjust, adjustList, adjustStep]

/-- Closed witness for `adjust_clips_straddling_caption`: the boundary at
`10` lies strictly between the corrected times `9` and `12` of the first
caption, which is clipped to `[9, 10)` with the new delay `-2` applied to
the rest. -/
theorem adjust_clips_straddling_caption_witness :
    adjustList [10] ⟨0, 0⟩ [⟨9, 12, "a"⟩, ⟨20, 21, "b"⟩] =
      ⟨9, 10, "a"⟩ :: adjustList [10] ⟨0 + (10 - 12), 1⟩ [⟨20, 21, "b"⟩]
    ∧ adjust [10] [⟨9, 12, "a"⟩, ⟨20, 21, "b"⟩] =
        [⟨9, 10, "a"⟩, ⟨18, 19, "b"⟩] := by
  have h := adjust_clips_straddling_caption [10] ⟨0, 0⟩ ⟨9, 12, "a"⟩
    [⟨20, 21, "b"⟩] (by norm_num) (by norm_num) (by norm_num)
  simpa using h

/-- C2 (counterexample) -- the claim says a caption whose corrected end
exceeds several remaining boundary marks consumes all of those marks
before the next entry is processed.  With marks `[1, 2, 10]` and a single
caption `[5, 12)` (corrected end `12` exceeds all three marks), the code
advances the cursor only once (to `1`, not `3`) and never reaches the
mark `10` that straddles the caption, so the entry is emitted unclipped. -/
theorem adjust_single_mark_per_entry_counterexample :
    adjustList [1, 2, 10] ⟨0, 0⟩ [⟨5, 12, "a"⟩] = [⟨5, 12, "a"⟩]
    ∧ (adjustStep [1, 2, 10] ⟨0, 0⟩ ⟨5, 12, "a"⟩).1.curr = 1
    ∧ (1 : ℕ) ≠ 3 := by
  refine ⟨?_, ?_, by decide⟩ <;> norm_num [adjustList, adjustStep]

/-- C2 (amended) -- while processing one caption entry the resynchronizer
examines at most one boundary mark: if the current mark is below the
corrected end and marks remain, the cursor advances by exactly one
(clipping exactly when the mark also falls strictly after the corrected
start); it never loops over further marks, as the `[1, 2, 10]` example
shows. -/
theorem adjust_examines_one_mark_per_entry (marks : List ℚ) (st : AdjState)
    (e : CaptionEntry) (rest : List CaptionEntry) :
    adjustList marks st (e :: rest) =
      (adjustStep marks st e).2 ::
        adjustList marks (adjustStep marks st e).1 rest
    ∧ (adjustStep marks st e).1.curr =
        (if st.curr < marks.length ∧ marks.getD st.curr 0 < e.rawEnd + st.delay
          then st.curr + 1 else st.curr)
    ∧ (adjustStep marks st e).1.curr ≤ st.curr + 1
    ∧ (adjustStep [1, 2, 10] ⟨0, 0⟩ ⟨5, 12, "x"⟩).1.curr = 1 := by
  refine ⟨rfl, ?_, ?_, by norm_num [adjustStep]⟩
  · simp only [adjustStep]
    split
    · split <;> rfl
    · rfl
  · simp only [adjustStep]
    split
    · split <;> simp
    · simp

/-- C7 -- with an empty boundary sequence the resynchronizer is the
identity transform: `adjust` returns early leaving the captions unchanged,
and even the rewriting loop itself, run with zero delay and no marks to
consume, reproduces every entry exactly. -/
theorem adjust_no_marks_identity (subs : List CaptionEntry) :
    adjust [] subs = subs ∧ ∀ c : ℕ, adjustList [] ⟨0, c⟩ subs = subs := by
  refine ⟨rfl, ?_⟩
  intro c
  induction subs with
  | nil => rfl
  | cons e rest ih =>
    simp only [adjustList, adjustStep]
    rw [if_neg (by simp)]
    simpa using ih

/-- A keep-segment as produced by `Transcoder.split`: the source range
`[start, stop)` handed to `ffmpeg` and the cumulative elapsed time of all
prior keep-segments (`elapsedAtStart`, the chapter position). -/
structure KeepSegment where
  start : ℚ
  stop : ℚ
  elapsedAtStart : ℚ
  deriving DecidableEq

/-- The state mutated by `Transcoder.split`: the source cursor `pos`, the
cumulative `elapsed`, the segment counter `seg`, and the three output
accumulators — extracted segments, chapter marks (`Chapters.add(pos, seg)`
calls, `none` label = terminal mark) and the subtitle cut marks recorded by
`Subtitles.mark`. -/
structure PlanState where
  pos : ℚ
  elapsed : ℚ
  seg : ℕ
  segments : List KeepSegment
  chapters : List (ℚ × Option ℕ)
  marks : List ℚ
  deriving DecidableEq

/-- `Transcoder._extract((a, b), elapsed)`: adds a labelled chapter mark at
`elapsed`, emits the segment `[a, b)`, increments the segment counter and
records the subtitle cut mark `self.subtitles.mark(clip[1])` — the
segment's end `b` in source coordinates. -/
def extractStep (st : PlanState) (a b : ℚ) : PlanState :=
  { st with
    seg := st.seg + 1
    segments := st.segments ++ [⟨a, b, st.elapsed⟩]
    chapters := st.chapters ++ [(st.elapsed, some st.seg)]
    marks := st.marks ++ [b] }

/-- The cutlist loop of `Transcoder.split`:

```
for cut in self.source.cutlist:
    (start, end) = cut
    if start > self.opts.clip_thresh and start > pos:
        self._extract((pos, start), elapsed)
    elapsed += start - pos
    pos = end
```

Note that `elapsed` and `pos` advance on every iteration, whether or not a
segment was extracted. -/
def splitLoop (thresh : ℚ) : List (ℚ × ℚ) → PlanState → PlanState
  | [], st => st
  | (s, e) :: rest, st =>
    let st1 := if s > thresh ∧ s > st.pos then extractStep st st.pos s else st
    splitLoop thresh rest
      { st1 with elapsed := st1.elapsed + (s - st1.pos), pos := e }

/-- `Transcoder.split`: run the cutlist loop from `pos = 0`, `elapsed = 0`,
extract a trailing segment when `pos < duration - thresh`, then place the
terminal (unlabelled) chapter mark at the final `elapsed`. -/
def split (duration thresh : ℚ) (cutlist : List (ℚ × ℚ)) : PlanState :=
  let st := splitLoop thresh cutlist ⟨0, 0, 0, [], [], []⟩
  let st2 :=
    if st.pos < duration - thresh then
      let st1 := extractStep st st.pos duration
      { st1 with elapsed := st1.elapsed + (duration - st1.pos),
                 pos := duration }
    else st
  { st2 with chapters := st2.chapters ++ [(st2.elapsed, none)] }

/-- C3 (counterexample) -- on duration `3600`, cuts `[(600,660),(1800,1830)]`,
threshold `5`, the terminal chapter mark sits at `3510` seconds of kept
content (`3600 - 60 - 30`), not at the claimed `3540`. -/
theorem split_example_terminal_mark_counterexample :
    (split 3600 5 [(600, 660), (1800, 1830)]).chapters.getLast? =
      some (3510, none)
    ∧ (3510 : ℚ) ≠ 3540 := by
  constructor
  · norm_num [split, splitLoop, extractStep]
  · norm_num

/-- C3 (amended) -- the end-to-end scenario: duration `3600`, remove
intervals `[(600,660),(1800,1830)]`, threshold `5` yield exactly the three
keep-segments `[0,600)`, `[660,1800)`, `[1830,3600)` with `elapsedAtStart`
values `0`, `600`, `1740`, and the terminal chapter mark — the total
final-timeline duration — at `3510` seconds. -/
theorem split_example_three_segments :
    (split 3600 5 [(600, 660), (1800, 1830)]).segments =
      [⟨0, 600, 0⟩, ⟨660, 1800, 600⟩, ⟨1830, 3600, 1740⟩]
    ∧ (split 3600 5 [(600, 660), (1800, 1830)]).chapters =
      [(0, some 0), (600, some 1), (1740, some 2), (3510, none)]
    ∧ (split 3600 5 [(600, 660), (1800, 1830)]).elapsed = 3510 := by
  refine ⟨?_, ?_, ?_⟩ <;> norm_num [split, splitLoop, extractStep]

/-- C4 (counterexample) -- the claim says a remove interval failing the
`start > thresh ∧ start > pos` test leaves `elapsed` and `pos` unchanged.
With threshold `5` and the single interval `(0, 100)` from the initial
state, no segment is emitted yet `pos` still advances to `100`; at the
`split` level the resulting single keep-segment starts at `100`, not at
the claimed untouched cursor `0`. -/
theorem split_skipped_interval_moves_cursor_counterexample :
    (splitLoop 5 [(0, 100)] ⟨0, 0, 0, [], [], []⟩).pos = 100
    ∧ (100 : ℚ) ≠ 0
    ∧ (split 3600 5 [(0, 100)]).segments = [⟨100, 3600, 0⟩] := by
  refine ⟨?_, by norm_num, ?_⟩ <;> norm_num [split, splitLoop, extractStep]

/-- C4 (amended) -- for each remove interval `(s, e)` the planner emits the
keep-segment `[pos, s)` with `elapsedAtStart = elapsed` exactly when
`s > thresh ∧ s > pos`, but `elapsed` advances by `s - pos` and `pos` is
set to `e` unconditionally, on every iteration. -/
theorem split_interval_step (thresh s e : ℚ) (rest : List (ℚ × ℚ))
    (st : PlanState) :
    splitLoop thresh ((s, e) :: rest) st =
      splitLoop thresh rest
        { (if s > thresh ∧ s > st.pos then extractStep st st.pos s else st)
          with elapsed := st.elapsed + (s - st.pos), pos := e }
    ∧ (splitLoop thresh [(s, e)] st).pos = e
    ∧ (splitLoop thresh [(s, e)] st).elapsed = st.elapsed + (s - st.pos) := by
  refine ⟨?_, ?_, ?_⟩ <;>
    simp only [splitLoop] <;>
    by_cases h : s > thresh ∧ s > st.pos <;>
    simp [h, extractStep, splitLoop]

/-- C6 (counterexample) -- the claim quantifies over every `totalDuration`,
but with duration `3` below the edge threshold `5` and an empty cutlist
the planner emits no keep-segment at all (the trailing test
`pos < duration - thresh` fails), so "exactly one KeepSegment" is false. -/
theorem split_empty_cutlist_short_duration_counterexample :
    (split 3 5 []).segments = [] ∧ ([] : List KeepSegment).length ≠ 1 := by
  refine ⟨?_, by decide⟩
  norm_num [split, splitLoop, extractStep]

/-- C6 (amended) -- whenever `totalDuration` exceeds the edge threshold and
the remove-interval list is empty, the planner produces exactly one
keep-segment `[0, totalDuration)` with `elapsedAtStart = 0`, and exactly
one terminal (unlabelled) chapter mark, placed at `totalDuration`. -/
theorem split_empty_cutlist (duration thresh : ℚ) (h : thresh < duration) :
    (split duration thresh []).segments = [⟨0, duration, 0⟩]
    ∧ (split duration thresh []).chapters = [(0, some 0), (duration, none)]
    ∧ ((split duration thresh []).chapters.filter
        (fun c => c.2.isNone)).length = 1 := by
  have hpos : (0 : ℚ) < duration - thresh := by linarith
  refine ⟨?_, ?_, ?_⟩ <;>
    simp [split, splitLoop, extractStep, hpos]

/-- Closed witness for `split_empty_cutlist` at duration `10`,
threshold `5`. -/
theorem split_empty_cutlist_witness :
    (split 10 5 []).segments = [⟨0, 10, 0⟩]
    ∧ (split 10 5 []).chapters = [(0, some 0), (10, none)]
    ∧ ((split 10 5 []).chapters.filter (fun c => c.2.isNone)).length = 1 :=
  split_empty_cutlist 10 5 (by norm_num)

/-- The cutlist well-formedness the design demands of the planner's input:
starting from cursor `pos`, every interval satisfies `pos ≤ start ≤ end`
and the intervals are disjoint and sorted (`end ≤` next `start`). -/
def chained (pos : ℚ) : List (ℚ × ℚ) → Bool
  | [] => true
  | c :: rest => decide (pos ≤ c.1) && decide (c.1 ≤ c.2) && chained c.2 rest

/-- Follows the spec's words: a keep-segment's end position expressed in
final-timeline (cumulative elapsed, post-cut) coordinates. -/
def elapsedAtEnd (s : KeepSegment) : ℚ :=
  s.elapsedAtStart + (s.stop - s.start)

/-- Each subtitle cut mark recorded by the loop is the source-coordinate
end of the keep-segment emitted alongside it. -/
theorem splitLoop_marks_eq (thresh : ℚ) (cl : List (ℚ × ℚ)) :
    ∀ st : PlanState, st.marks = st.segments.map KeepSegment.stop →
      (splitLoop thresh cl st).marks =
        (splitLoop thresh cl st).segments.map KeepSegment.stop := by
  induction cl with
  | nil => intro st h; simpa [splitLoop] using h
  | cons c rest ih =>
    intro st h
    obtain ⟨s, e⟩ := c
    simp only [splitLoop]
    apply ih
    by_cases hc : s > thresh ∧ s > st.pos <;> simp [hc, extractStep, h]

/-- Loop invariant: given a well-formed cutlist ahead of the cursor, the
recorded subtitle marks stay strictly increasing and bounded by the
cursor. -/
theorem splitLoop_marks_mono (thresh : ℚ) (cl : List (ℚ × ℚ)) :
    ∀ st : PlanState, chained st.pos cl = true →
      (∀ m ∈ st.marks, m ≤ st.pos) → List.Chain' (· < ·) st.marks →
      List.Chain' (· < ·) (splitLoop thresh cl st).marks ∧
        ∀ m ∈ (splitLoop thresh cl st).marks,
          m ≤ (splitLoop thresh cl st).pos := by
  induction cl with
  | nil => intro st _ hb hc; exact ⟨hc, hb⟩
  | cons c rest ih =>
    intro st hch hb hc
    obtain ⟨s, e⟩ := c
    simp only [chained, Bool.and_eq_true, decide_eq_true_eq] at hch
    obtain ⟨⟨hps, hse⟩, hch'⟩ := hch
    simp only [splitLoop]
    by_cases hcond : s > thresh ∧ s > st.pos
    · rw [if_pos hcond]
      apply ih
      · simpa [extractStep] using hch'
      · intro m hm
        simp only [extractStep, List.mem_append, List.mem_singleton] at hm
        rcases hm with hm | hm
        · exact le_trans (le_trans (hb m hm) (le_of_lt hcond.2)) hse
        · rw [hm]; exact hse
      · show List.Chain' (· < ·) (st.marks ++ [s])
        rw [List.chain'_append]
        refine ⟨hc, List.chain'_singleton _, ?_⟩
        intro x hx y hy
        simp only [List.head?_cons, Option.mem_def, Option.some.injEq] at hy
        subst hy
        obtain ⟨hne, hxl⟩ := List.mem_getLast?_eq_getLast hx
        subst hxl
        exact lt_of_le_of_lt (hb _ (List.getLast_mem hne)) hcond.2
    · rw [if_neg hcond]
      apply ih
      · simpa using hch'
      · intro m hm
        exact le_trans (hb m hm) (le_trans hps hse)
      · exact hc

/-- C5 (amended) -- the cut-boundary marks handed to the caption
resynchronizer (`Subtitles.mark(clip[1])`) are exactly the emitted
keep-segments' end positions in SOURCE-timeline coordinates — one mark per
emitted segment, in the same order — and, for a disjoint sorted cutlist
and a nonnegative edge threshold, strictly increasing. -/
theorem split_marks_are_source_segment_ends (duration thresh : ℚ)
    (cl : List (ℚ × ℚ)) (hth : 0 ≤ thresh) (hch : chained 0 cl = true) :
    (split duration thresh cl).marks =
      (split duration thresh cl).segments.map KeepSegment.stop
    ∧ List.Chain' (· < ·) (split duration thresh cl).marks := by
  have h1 := splitLoop_marks_eq thresh cl ⟨0, 0, 0, [], [], []⟩ rfl
  have h2 := splitLoop_marks_mono thresh cl ⟨0, 0, 0, [], [], []⟩
      (by simpa using hch) (by simp) (by simp)
  simp only [split]
  by_cases hcase :
      (splitLoop thresh cl ⟨0, 0, 0, [], [], []⟩).pos < duration - thresh
  · rw [if_pos hcase]
    have hpd : (splitLoop thresh cl ⟨0, 0, 0, [], [], []⟩).pos < duration :=
      lt_of_lt_of_le hcase (by linarith)
    constructor
    · simp [extractStep, h1]
    · show List.Chain' (· < ·)
        ((splitLoop thresh cl ⟨0, 0, 0, [], [], []⟩).marks ++ [duration])
      rw [List.chain'_append]
      refine ⟨h2.1, List.chain'_singleton _, ?_⟩
      intro x hx y hy
      simp only [List.head?_cons, Option.mem_def, Option.some.injEq] at hy
      subst hy
      obtain ⟨hne, hxl⟩ := List.mem_getLast?_eq_getLast hx
      subst hxl
      exact lt_of_le_of_lt (h2.2 _ (List.getLast_mem hne)) hpd
  · rw [if_neg hcase]
    exact ⟨h1, h2.1⟩

/-- Closed witness for `split_marks_are_source_segment_ends` on the
end-to-end scenario's input. -/
theorem split_marks_are_source_segment_ends_witness :
    (split 3600 5 [(600, 660), (1800, 1830)]).marks =
      (split 3600 5 [(600, 660), (1800, 1830)]).segments.map
        KeepSegment.stop
    ∧ List.Chain' (· < ·) (split 3600 5 [(600, 660), (1800, 1830)]).marks :=
  split_marks_are_source_segment_ends 3600 5 [(600, 660), (1800, 1830)]
    (by norm_num) (by norm_num [chained])

/-- C5 (counterexample) -- the claim says the marks are the per-segment end
positions in final-timeline (cumulative elapsed) coordinates.  On the
end-to-end scenario the recorded marks are `[600, 1800, 3600]` (source
ends), while the segments' final-timeline end positions are
`[600, 1740, 3510]`: the lists differ from the second segment on. -/
theorem split_marks_not_final_timeline_counterexample :
    (split 3600 5 [(600, 660), (1800, 1830)]).marks = [600, 1800, 3600]
    ∧ (split 3600 5 [(600, 660), (1800, 1830)]).segments.map elapsedAtEnd =
        [600, 1740, 3510]
    ∧ ([600, 1800, 3600] : List ℚ) ≠ [600, 1740, 3510] := by
  refine ⟨?_, ?_, by norm_num⟩ <;>
    norm_num [split, splitLoop, extractStep, elapsedAtEnd]

/-- `_iso_639_2`: the two-letter → three-letter ISO language-code table;
`none` models the `ValueError` raised for an unknown code. -/
def iso_639_2 (lang : String) : Option String :=
  [("cs", "ces"), ("da", "dan"), ("de", "deu"), ("es", "spa"),
   ("el", "ell"), ("en", "eng"), ("fi", "fin"), ("fr", "fra"),
   ("he", "heb"), ("hr", "hrv"), ("hu", "hun"), ("it", "ita"),
   ("ja", "jpn"), ("ko", "kor"), ("nl", "nld"), ("no", "nor"),
   ("pl", "pol"), ("pt", "por"), ("ru", "rus"), ("sl", "slv"),
   ("sv", "swe"), ("tr", "tur"), ("zh", "zho")].lookup lang

/-- The audio half of the probe loop in `Transcoder._find_streams`: each
probed audio record is a `(pid, language-tag)` pair, and its `enabled`
flag is set exactly when a language tag is present and equals the
requested three-letter target language. -/
def probeAudio (tlang : String) (records : List (ℕ × Option String)) :
    List (ℕ × Bool) :=
  records.map (fun r => (r.1, r.2 == some tlang))

/-- The audio selection of `Transcoder._find_streams`: raise
(`RuntimeError`, modelled as `.error`) when no audio candidate exists;
otherwise, if no candidate ended up enabled, force-enable the first one in
probe order. -/
def selectAudio (tlang : String) (records : List (ℕ × Option String)) :
    Except String (List (ℕ × Bool)) :=
  let astreams := probeAudio tlang records
  if astreams.length = 0 then
    .error "No audio streams could be found."
  else if (astreams.filter (fun a => a.2)).length = 0 then
    .ok (match astreams with
         | [] => []
         | a :: rest => (a.1, true) :: rest)
  else .ok astreams

/-- C8 (counterexample) -- the claim says exactly the first candidate whose
language tag matches the target is selected.  With two candidates both
tagged `fra` and target language `fra`, the code enables both of them:
the selected set has two members, not one. -/
theorem selectAudio_multiple_matches_counterexample :
    selectAudio "fra" [(1, some "fra"), (2, some "fra")] =
      .ok [(1, true), (2, true)]
    ∧ (([(1, true), (2, true)] : List (ℕ × Bool)).filter
        (fun a => a.2)).length ≠ 1 := by
  constructor
  · rfl
  · decide

/-- C8 (amended) -- every probed audio candidate whose language tag matches
the requested target language is selected; if no candidate matches, the
first candidate in probe order is selected (and it alone).  In particular,
with one candidate tagged `eng` and one tagged `fra` and requested
language `fr` (ISO `fra`), exactly the `fra` stream is selected,
regardless of probe order. -/
theorem selectAudio_matching_language (tlang : String)
    (records : List (ℕ × Option String)) (hne : records ≠ []) :
    ((∃ r ∈ records, r.2 = some tlang) →
      selectAudio tlang records =
        .ok (records.map (fun r => (r.1, r.2 == some tlang))))
    ∧ ((∀ r ∈ records, r.2 ≠ some tlang) →
      selectAudio tlang records =
        .ok (((records.head hne).1, true) ::
          records.tail.map (fun r => (r.1, false))))
    ∧ iso_639_2 "fr" = some "fra"
    ∧ selectAudio "fra" [(1, some "eng"), (2, some "fra")] =
        .ok [(1, false), (2, true)]
    ∧ selectAudio "fra" [(2, some "fra"), (1, some "eng")] =
        .ok [(2, true), (1, false)] := by
  refine ⟨?_, ?_, rfl, rfl, rfl⟩
  · rintro ⟨r, hr, htag⟩
    have hmem : (r.1, true) ∈ probeAudio tlang records := by
      simp only [probeAudio, List.mem_map]
      exact ⟨r, hr, by simp [htag]⟩
    have hfil : ((probeAudio tlang records).filter
        (fun a => a.2)).length ≠ 0 := by
      intro hzero
      rw [List.length_eq_zero] at hzero
      have : (r.1, true) ∈ (probeAudio tlang records).filter
          (fun a => a.2) := List.mem_filter.2 ⟨hmem, rfl⟩
      rw [hzero] at this
      exact List.not_mem_nil _ this
    have hlen : (probeAudio tlang records).length ≠ 0 := by
      simp [probeAudio, List.length_eq_zero, hne]
    simp only [selectAudio]
    rw [if_neg hlen, if_neg hfil]
    rfl
  · intro hall
    obtain ⟨a, rest, rfl⟩ := List.exists_cons_of_ne_nil hne
    have hfalse : ∀ r ∈ a :: rest, (r.2 == some tlang) = false := by
      intro r hr
      simpa using hall r hr
    have hfil : ((probeAudio tlang (a :: rest)).filter
        (fun x => x.2)).length = 0 := by
      rw [List.length_eq_zero, List.filter_eq_nil_iff]
      intro x hx
      simp only [probeAudio, List.mem_map] at hx
      obtain ⟨r, hr, rfl⟩ := hx
      simpa using hfalse r hr
    have hlen : (probeAudio tlang (a :: rest)).length ≠ 0 := by
      simp [probeAudio]
    simp only [selectAudio]
    rw [if_neg hlen, if_pos hfil]
    show Except.ok
        ((a.1, true) :: rest.map (fun r => (r.1, r.2 == some tlang))) = _
    simp only [List.head_cons, List.tail_cons]
    exact congrArg Except.ok (congrArg _ (List.map_congr_left
      fun r hr => by simp [hfalse r (List.mem_cons_of_mem a hr)]))

/-- Closed witness for `selectAudio_matching_language`: the `eng`/`fra`
catalog with target `fra` has a matching candidate, and exactly the `fra`
stream ends up enabled. -/
theorem selectAudio_matching_language_witness :
    selectAudio "fra" [(1, some "eng"), (2, some "fra")] =
      .ok [(1, false), (2, true)]
    ∧ selectAudio "fra" [(1, some "eng"), (2, some "fra")] =
        .ok ([((1 : ℕ), some "eng"), (2, some "fra")].map
          (fun r => (r.1, r.2 == some "fra"))) := by
  have h := selectAudio_matching_language "fra"
    [(1, some "eng"), (2, some "fra")] (by simp)
  exact ⟨h.2.2.2.1, h.1 ⟨(2, some "fra"), by simp, rfl⟩⟩

/-- Modelled from the spec: the frame-to-byte-offset conversion of the
frame/byte-offset splitting strategy.  The calibration fields `_frames`
and `_extra` are declared on `Transcoder` (`_frames = 0`, `_extra = 0`)
but the conversion routine that would consume them is absent from the
source, so the proportional-correction formula
`byteOffset = measuredBytes + extraBytes * (frame / totalFrames)` is taken
from the spec's words. -/
def byteOffsetOfFrame (measuredBytes extraBytes frame totalFrames : ℚ) :
    ℚ :=
  measuredBytes + extraBytes * (frame / totalFrames)

/-- C9 -- with `totalFrames = 1000` and `extraBytes = 2000`, a request for
frame `500` resolves to `measuredBytes + 1000`: the proportional
correction applied exactly at the midpoint. -/
theorem byteOffsetOfFrame_midpoint (measuredBytes : ℚ) :
    byteOffsetOfFrame measuredBytes 2000 500 1000 = measuredBytes + 1000 := by
  norm_num [byteOffsetOfFrame]

/-- Big-endian decimal digit list of a natural number (`'%d'`), empty for
`0` before padding. -/
def digitsBE (n : ℕ) : List ℕ :=
  (Nat.digits 10 n).reverse

/-- Zero-padding on the left to a minimum width: `'%0wd'`.  A value wider
than `w` keeps all its digits (`'%03d' % 1000 = '1000'`). -/
def pad0 (w : ℕ) (l : List ℕ) : List ℕ :=
  List.replicate (w - l.length) 0 ++ l

/-- The four digit groups of one SRT timestamp as matched by the pattern
`(\d\d):(\d\d):(\d\d),(\d+)` of `Subtitles.adjust`. -/
structure SrtTime where
  g1 : List ℕ
  g2 : List ℕ
  g3 : List ℕ
  g4 : List ℕ
  deriving DecidableEq

/-- `_seconds_to_time_frac(sec, comma=True)` at the digit-group level:

```
hours = int(sec / 3600)
sec -= hours * 3600
minutes = int(sec / 60)
sec -= minutes * 60
frac = int(round(sec % 1.0 * 1000))
return '%02d:%02d:%02d,%03d' % (hours, minutes, sec, frac)
```

`int()` truncation on the nonnegative domain is `Nat.floor`; `%d` of the
remaining float seconds truncates likewise; `% 1.0` is `Int.fract`. -/
def seconds_to_time_frac_comma (sec : ℚ) : SrtTime :=
  let hours : ℕ := ⌊sec / 3600⌋₊
  let sec1 := sec - hours * 3600
  let minutes : ℕ := ⌊sec1 / 60⌋₊
  let sec2 := sec1 - minutes * 60
  let frac : ℕ := (round (Int.fract sec2 * 1000)).toNat
  ⟨pad0 2 (digitsBE hours), pad0 2 (digitsBE minutes),
   pad0 2 (digitsBE ⌊sec2⌋₊), pad0 3 (digitsBE frac)⟩

/-- The integer a decimal digit group denotes (`int(ts.group(i))`). -/
def groupVal (l : List ℕ) : ℕ :=
  l.foldl (fun a d => 10 * a + d) 0

/-- One timestamp of `_convert_timestamp`:
`h * 3600 + m * 60 + s + frac / 10 ** len(group(4))`. -/
def timestampVal (t : SrtTime) : ℚ :=
  (groupVal t.g1 : ℚ) * 3600 + (groupVal t.g2 : ℚ) * 60 + (groupVal t.g3 : ℚ)
    + (groupVal t.g4 : ℚ) / 10 ^ t.g4.length

/-- `_convert_timestamp`: both timestamps of one `-->` line. -/
def convert_timestamp (t1 t2 : SrtTime) : ℚ × ℚ :=
  (timestampVal t1, timestampVal t2)

/-- Reading back the digits of `n` yields `n`. -/
theorem groupVal_digitsBE (n : ℕ) : groupVal (digitsBE n) = n := by
  have hfold : ∀ l : List ℕ,
      List.foldr (fun x y => 10 * y + x) 0 l = Nat.ofDigits 10 l := by
    intro l
    induction l with
    | nil => simp [Nat.ofDigits_nil]
    | cons d t ih => simp [Nat.ofDigits_cons, ih]; ring
  show (Nat.digits 10 n).reverse.foldl (fun a d => 10 * a + d) 0 = n
  rw [List.foldl_reverse, hfold, Nat.ofDigits_digits]

/-- Leading zeros do not change the denoted integer. -/
theorem groupVal_pad0 (w : ℕ) (l : List ℕ) :
    groupVal (pad0 w l) = groupVal l := by
  show (List.replicate (w - l.length) 0 ++ l).foldl (fun a d => 10 * a + d) 0
    = l.foldl (fun a d => 10 * a + d) 0
  rw [List.foldl_append]
  congr 1
  induction (w - l.length) with
  | zero => rfl
  | succ k ih => simpa [List.replicate_succ] using ih

/-- A group no wider than the padding width is padded to exactly that
width. -/
theorem pad0_length (w : ℕ) (l : List ℕ) (h : l.length ≤ w) :
    (pad0 w l).length = w := by
  simp only [pad0, List.length_append, List.length_replicate]
  omega

/-- `n < 10 ^ w` has at most `w` decimal digits. -/
theorem digitsBE_length_le (n w : ℕ) (h : n < 10 ^ w) :
    (digitsBE n).length ≤ w := by
  show (Nat.digits 10 n).reverse.length ≤ w
  rw [List.length_reverse]
  rcases Nat.eq_zero_or_pos n with rfl | hn
  · simp
  · by_contra hlen
    push_neg at hlen
    have h1 : 10 ^ (w + 1) ≤ 10 ^ (Nat.digits 10 n).length :=
      Nat.pow_le_pow_right (by norm_num) hlen
    have h2 : 10 ^ (Nat.digits 10 n).length ≤ 10 * n :=
      Nat.base_pow_length_digits_le 10 n (by norm_num) hn.ne'
    have h3 : 10 * 10 ^ w ≤ 10 * n := by
      calc 10 * 10 ^ w = 10 ^ (w + 1) := by ring
        _ ≤ 10 ^ (Nat.digits 10 n).length := h1
        _ ≤ 10 * n := h2
    have := Nat.le_of_mul_le_mul_left h3 (by norm_num)
    omega

/-- Floor of a cast-nat quotient is nat division. -/
theorem nat_floor_cast_div (a b : ℕ) : ⌊(a : ℚ) / (b : ℚ)⌋₊ = a / b := by
  rw [Nat.floor_div_nat, Nat.floor_natCast]

/-- For a whole number `k` of milliseconds, the formatter produces exactly
the hour / minute / second / millisecond decomposition of `k`. -/
theorem seconds_to_time_frac_comma_ms (k : ℕ) :
    seconds_to_time_frac_comma ((k : ℚ) / 1000) =
      ⟨pad0 2 (digitsBE (k / 3600000)),
       pad0 2 (digitsBE (k % 3600000 / 60000)),
       pad0 2 (digitsBE (k % 3600000 % 60000 / 1000)),
       pad0 3 (digitsBE (k % 3600000 % 60000 % 1000))⟩ := by
  have hH : ⌊(k : ℚ) / 1000 / 3600⌋₊ = k / 3600000 := by
    rw [show (k : ℚ) / 1000 / 3600 = (k : ℚ) / 3600000 by ring]
    simpa using nat_floor_cast_div k 3600000
  have hsec1 : (k : ℚ) / 1000 - (k / 3600000 : ℕ) * 3600 =
      ((k % 3600000 : ℕ) : ℚ) / 1000 := by
    have hdm : 3600000 * (k / 3600000) + k % 3600000 = k :=
      Nat.div_add_mod k 3600000
    have hc : ((3600000 * (k / 3600000) + k % 3600000 : ℕ) : ℚ) = (k : ℚ) :=
      by exact_mod_cast congrArg (Nat.cast : ℕ → ℚ) hdm
    push_cast at hc
    field_simp
    linarith
  have hM : ⌊((k % 3600000 : ℕ) : ℚ) / 1000 / 60⌋₊ = k % 3600000 / 60000 := by
    rw [show ((k % 3600000 : ℕ) : ℚ) / 1000 / 60 =
      ((k % 3600000 : ℕ) : ℚ) / 60000 by ring]
    simpa using nat_floor_cast_div (k % 3600000) 60000
  have hsec2 : ((k % 3600000 : ℕ) : ℚ) / 1000 -
      (k % 3600000 / 60000 : ℕ) * 60 =
      ((k % 3600000 % 60000 : ℕ) : ℚ) / 1000 := by
    have hdm : 60000 * (k % 3600000 / 60000) + k % 3600000 % 60000 =
        k % 3600000 := Nat.div_add_mod (k % 3600000) 60000
    have hc : ((60000 * (k % 3600000 / 60000) + k % 3600000 % 60000 : ℕ) :
        ℚ) = ((k % 3600000 : ℕ) : ℚ) :=
      by exact_mod_cast congrArg (Nat.cast : ℕ → ℚ) hdm
    push_cast at hc
    field_simp
    linarith
  have hS : ⌊((k % 3600000 % 60000 : ℕ) : ℚ) / 1000⌋₊ =
      k % 3600000 % 60000 / 1000 := by
    simpa using nat_floor_cast_div (k % 3600000 % 60000) 1000
  have hsplit : ((k % 3600000 % 60000 : ℕ) : ℚ) / 1000 =
      (k % 3600000 % 60000 / 1000 : ℕ) +
        ((k % 3600000 % 60000 % 1000 : ℕ) : ℚ) / 1000 := by
    have hdm : 1000 * (k % 3600000 % 60000 / 1000) +
        k % 3600000 % 60000 % 1000 = k % 3600000 % 60000 :=
      Nat.div_add_mod (k % 3600000 % 60000) 1000
    have hc : ((1000 * (k % 3600000 % 60000 / 1000) +
        k % 3600000 % 60000 % 1000 : ℕ) : ℚ) =
        ((k % 3600000 % 60000 : ℕ) : ℚ) :=
      by exact_mod_cast congrArg (Nat.cast : ℕ → ℚ) hdm
    push_cast at hc
    field_simp
    linarith
  have hm_lt : ((k % 3600000 % 60000 % 1000 : ℕ) : ℚ) / 1000 < 1 := by
    rw [div_lt_one (by norm_num)]
    exact_mod_cast Nat.mod_lt _ (by norm_num)
  have hfract : Int.fract (((k % 3600000 % 60000 : ℕ) : ℚ) / 1000) * 1000 =
      ((k % 3600000 % 60000 % 1000 : ℕ) : ℚ) := by
    rw [hsplit, Int.fract_nat_add,
      Int.fract_eq_self.2 ⟨by positivity, hm_lt⟩]
    field_simp
  simp only [seconds_to_time_frac_comma]
  rw [hH, hsec1, hM, hsec2, hS, hfract]
  rw [round_natCast, Int.toNat_natCast]

/-- Parsing back the formatted groups of a whole-millisecond time recovers
the exact value. -/
theorem timestampVal_ms (k : ℕ) :
    timestampVal (seconds_to_time_frac_comma ((k : ℚ) / 1000)) =
      (k : ℚ) / 1000 := by
  rw [seconds_to_time_frac_comma_ms]
  have hm_lt : k % 3600000 % 60000 % 1000 < 1000 := by omega
  have hlen4 : (pad0 3 (digitsBE (k % 3600000 % 60000 % 1000))).length = 3 :=
    pad0_length _ _ (digitsBE_length_le _ 3
      (lt_of_lt_of_le hm_lt (by norm_num)))
  simp only [timestampVal, groupVal_pad0, groupVal_digitsBE, hlen4]
  have hk_eq : 3600000 * (k / 3600000) + 60000 * (k % 3600000 / 60000) +
      1000 * (k % 3600000 % 60000 / 1000) +
      k % 3600000 % 60000 % 1000 = k := by omega
  have hc : ((3600000 * (k / 3600000) + 60000 * (k % 3600000 / 60000) +
      1000 * (k % 3600000 % 60000 / 1000) +
      k % 3600000 % 60000 % 1000 : ℕ) : ℚ) = (k : ℚ) :=
    by exact_mod_cast congrArg (Nat.cast : ℕ → ℚ) hk_eq
  push_cast at hc
  rw [show ((10 : ℚ)) ^ 3 = 1000 by norm_num]
  field_simp
  linarith

/-- C10 -- for whole-millisecond times below 100 hours, formatting with
`_seconds_to_time_frac(…, comma=True)` and re-parsing through
`_convert_timestamp` (applied, as in `Subtitles.adjust`, to the two
timestamps of one line) is the identity; moreover the produced groups have
the `HH:MM:SS,mmm` shape (2/2/2/3 digits), so the SRT pattern
`(\d\d):(\d\d):(\d\d),(\d+)` does match the formatted line. -/
theorem convert_timestamp_roundtrip (k l : ℕ)
    (hk : k < 360000000) (hl : l < 360000000) :
    convert_timestamp (seconds_to_time_frac_comma ((k : ℚ) / 1000))
        (seconds_to_time_frac_comma ((l : ℚ) / 1000)) =
      ((k : ℚ) / 1000, (l : ℚ) / 1000)
    ∧ (seconds_to_time_frac_comma ((k : ℚ) / 1000)).g1.length = 2
    ∧ (seconds_to_time_frac_comma ((k : ℚ) / 1000)).g2.length = 2
    ∧ (seconds_to_time_frac_comma ((k : ℚ) / 1000)).g3.length = 2
    ∧ (seconds_to_time_frac_comma ((k : ℚ) / 1000)).g4.length = 3 := by
  refine ⟨?_, ?_, ?_, ?_, ?_⟩
  · simp [convert_timestamp, timestampVal_ms k, timestampVal_ms l]
  all_goals rw [seconds_to_time_frac_comma_ms]
  · exact pad0_length _ _ (digitsBE_length_le _ 2
      (lt_of_lt_of_le (by omega : k / 3600000 < 100) (by norm_num)))
  · exact pad0_length _ _ (digitsBE_length_le _ 2
      (lt_of_lt_of_le (by omega : k % 3600000 / 60000 < 100) (by norm_num)))
  · exact pad0_length _ _ (digitsBE_length_le _ 2
      (lt_of_lt_of_le (by omega : k % 3600000 % 60000 / 1000 < 100)
        (by norm_num)))
  · exact pad0_length _ _ (digitsBE_length_le _ 3
      (lt_of_lt_of_le (by omega : k % 3600000 % 60000 % 1000 < 1000)
        (by norm_num)))

/-- Closed witness for `convert_timestamp_roundtrip`: `3675.140` seconds
(`01:01:15,140`) and `59.999` seconds (`00:00:59,999`) both survive the
round-trip. -/
theorem convert_timestamp_roundtrip_witness :
    convert_timestamp (seconds_to_time_frac_comma ((3675140 : ℚ) / 1000))
        (seconds_to_time_frac_comma ((59999 : ℚ) / 1000)) =
      ((3675140 : ℚ) / 1000, (59999 : ℚ) / 1000)
    ∧ (seconds_to_time_frac_comma ((3675140 : ℚ) / 1000)).g1.length = 2
    ∧ (seconds_to_time_frac_comma ((3675140 : ℚ) / 1000)).g2.length = 2
    ∧ (seconds_to_time_frac_comma ((3675140 : ℚ) / 1000)).g3.length = 2
    ∧ (seconds_to_time_frac_comma ((3675140 : ℚ) / 1000)).g4.length = 3 := by
  have h := convert_timestamp_roundtrip 3675140 59999
    (by norm_num) (by norm_num)
  exact_mod_cast h
